import Mathlib

/-!
Verification of the sorted running-balance ledger projection implemented by
`HistoryItemModel` in `electrumsv/gui/qt/history_list.py`, together with the
status derivation `HistoryView._get_tx_status` and the `TX_ICONS` table.

The Python class is shallowly embedded: the mutable model state
(`_data`, `_balances`, `_height`, `_balance`) becomes an explicit record that
every operation threads through, the Qt `dataChanged` emissions of
`update_line` are recorded as a list of dirty row ranges, and the
`raise Exception("Invalid balance detected", from_row)` in
`_calculate_balances` becomes an `Except.error`.  Python integers are `Int`;
the optional/falsy `timestamp` is an `Int` whose truthiness is `≠ 0`; the
float constant `1e9` of `_get_sort_key` is the integer `10^9` (all compared
values are integral).  Sort keys are pairs compared lexicographically, as
Python compares tuples.
-/

namespace HistoryList

/-- A history line, mirroring
`HistoryLine(namedtuple("HistoryLine", "tx_hash, height, timestamp, value, position"))`. -/
structure HistoryLine where
  tx_hash : String
  height : Int
  timestamp : Int
  value : Int
  position : Int
deriving Repr, DecidableEq, Inhabited

/-- The `1e9` constant used by `_get_sort_key`. -/
def BIG : Int := 1000000000

/-- Lexicographic `≤` on sort-key pairs, as Python compares tuples. -/
def keyLe (a b : Int × Int) : Bool :=
  decide (a.1 < b.1) || (decide (a.1 = b.1) && decide (a.2 ≤ b.2))

/-- `HistoryItemModel._get_sort_key`. -/
def get_sort_key (line : HistoryLine) : Int × Int :=
  if line.timestamp ≠ 0 then (line.height, line.position)
  else if line.height ≠ 0 then
    (if line.height > 0 then (line.height, (0 : Int)) else (BIG - line.height, (0 : Int)))
  else (BIG + 1, 0)

/-- The state of a `HistoryItemModel`: `_data`, `_balances`, `_height`, `_balance`. -/
structure HistoryItemModel where
  data : List HistoryLine
  balances : List Int
  height : Int
  balance : Int
deriving Repr, DecidableEq, Inhabited

deriving instance DecidableEq for Except

/-- `HistoryItemModel._reset_balances`: `self._balances = [0] * len(self._data)`. -/
def reset_balances (m : HistoryItemModel) : HistoryItemModel :=
  { m with balances := List.replicate m.data.length 0 }

/-- The loop of `_calculate_balances`:
`for i in range(from_row, len(data)): balance += data[i].value; balances[i] = balance`,
with the remaining lines `data[i:]` passed as an explicit list. -/
def calcLoop : List HistoryLine → Nat → List Int → Int → List Int
  | [], _, balances, _ => balances
  | line :: rest, i, balances, balance =>
      calcLoop rest (i + 1) (balances.set i (balance + line.value)) (balance + line.value)

/-- One pass of the `_calculate_balances` loop starting at index `i` with accumulator
`balance`. -/
def calcFrom (data : List HistoryLine) (balances : List Int) (balance : Int) (i : Nat) :
    List Int :=
  calcLoop (data.drop i) i balances balance

/-- `sum(line.value for line in self._data)`. -/
def sumVals (data : List HistoryLine) : Int := (data.map (·.value)).sum

/-- `HistoryItemModel._calculate_balances(from_row)`.  The
`raise Exception("Invalid balance detected", from_row)` is an `Except.error`. -/
def calculate_balances (m : HistoryItemModel) (from_row : Nat) :
    Except (String × Nat) HistoryItemModel :=
  if m.data.length = 0 then Except.ok m
  else
    let balances' :=
      if from_row = 0 then calcFrom m.data m.balances 0 0
      else calcFrom m.data m.balances (m.balances.getD (from_row - 1) 0) from_row
    if sumVals m.data ≠ balances'.getLastD 0 then
      Except.error ("Invalid balance detected", from_row)
    else Except.ok { m with balances := balances' }

/-- `HistoryItemModel.set_data(height, balance, data)`. -/
def set_data (m : HistoryItemModel) (height balance : Int) (data : List HistoryLine) :
    Except (String × Nat) HistoryItemModel :=
  calculate_balances
    (reset_balances { m with height := height, balance := balance, data := data }) 0

/-- The loop of `HistoryItemModel._get_row`: first index whose `tx_hash` matches. -/
def get_row_list : List HistoryLine → String → Option Nat
  | [], _ => none
  | line :: rest, tx => if line.tx_hash = tx then some 0 else (get_row_list rest tx).map (· + 1)

/-- `HistoryItemModel._get_row(tx_hash)`. -/
def get_row (m : HistoryItemModel) (tx : String) : Option Nat :=
  get_row_list m.data tx

/-- The backward scan of `_get_match_row`:
`for i in range(len(data)-1, -1, -1): if new_key >= key(data[i]): return i` / `return -1`.
The `Nat` argument is one above the next index to test. -/
def matchRowDown (data : List HistoryLine) (new_key : Int × Int) : Nat → Int
  | 0 => -1
  | i + 1 =>
      if keyLe (get_sort_key (data.getD i default)) new_key then (i : Int)
      else matchRowDown data new_key i

/-- `HistoryItemModel._get_match_row(line)`. -/
def get_match_row (m : HistoryItemModel) (line : HistoryLine) : Int :=
  matchRowDown m.data (get_sort_key line) m.data.length

/-- `HistoryItemModel._add_line(line)` (structural part; returns the new state and
the insertion row). -/
def add_line_impl (m : HistoryItemModel) (line : HistoryLine) : HistoryItemModel × Nat :=
  let match_row := get_match_row m line
  let insert_row := (match_row + 1).toNat
  let row_count := m.data.length
  if insert_row = row_count then
    let balance := m.balances.getLastD 0
    ({ m with data := m.data ++ [line], balances := m.balances ++ [balance] }, insert_row)
  else
    ({ m with data := m.data.insertIdx insert_row line,
              balances := m.balances.insertIdx insert_row 0 }, insert_row)

/-- `HistoryItemModel.add_line(line)`: insert, then `_calculate_balances(insert_row)`. -/
def add_line (m : HistoryItemModel) (line : HistoryLine) :
    Except (String × Nat) HistoryItemModel :=
  let r := add_line_impl m line
  calculate_balances r.1 r.2

/-- `HistoryItemModel._remove_line(row)`. -/
def remove_line (m : HistoryItemModel) (row : Nat) : HistoryItemModel × HistoryLine :=
  ({ m with data := m.data.eraseIdx row, balances := m.balances.eraseIdx row },
   m.data.getD row default)

/-- The `values: Dict[int, Any]` argument of `update_line`: an optional new value per
field of `HistoryLine` (field indices `LI_HASH .. LI_POSITION`). -/
structure FieldChanges where
  tx_hash : Option String := none
  height : Option Int := none
  timestamp : Option Int := none
  value : Option Int := none
  position : Option Int := none
deriving Repr, DecidableEq, Inhabited

/-- `len(values) == 0` for the dict of field changes. -/
def FieldChanges.isEmptyMap (v : FieldChanges) : Bool :=
  v.tx_hash.isNone && v.height.isNone && v.timestamp.isNone && v.value.isNone &&
    v.position.isNone

/-- `l = list(old_line); for value_index, value in values.items(): l[value_index] = value;
HistoryLine(*l)`. -/
def applyChanges (line : HistoryLine) (v : FieldChanges) : HistoryLine :=
  { tx_hash := v.tx_hash.getD line.tx_hash
    height := v.height.getD line.height
    timestamp := v.timestamp.getD line.timestamp
    value := v.value.getD line.value
    position := v.position.getD line.position }

/-- Result of `update_line`: the new state, the returned `bool`, and the row ranges of
the `dataChanged` signals it emitted. -/
structure UpdateResult where
  model : HistoryItemModel
  ok : Bool
  dirtyRows : List (Nat × Nat)
deriving Repr, DecidableEq, Inhabited

/-- `HistoryItemModel.update_line(tx_hash, values)`. -/
def update_line (m : HistoryItemModel) (tx : String) (values : FieldChanges) :
    Except (String × Nat) UpdateResult :=
  match get_row m tx with
  | none => Except.ok ⟨m, false, []⟩
  | some row =>
    let old_line := m.data.getD row default
    if values.isEmptyMap then
      Except.ok ⟨m, true, [(row, row)]⟩
    else
      let new_line := applyChanges old_line values
      let m1 := { m with data := m.data.set row new_line }
      if get_sort_key old_line ≠ get_sort_key new_line then
        let m2 := (remove_line m1 row).1
        let r := add_line_impl m2 new_line
        (calculate_balances r.1 (min r.2 row)).map (fun m4 => ⟨m4, true, []⟩)
      else
        Except.ok ⟨m1, true, [(row, row)]⟩

/-- The three public mutating operations of `HistoryItemModel`. -/
inductive Op where
  | setData (height balance : Int) (data : List HistoryLine)
  | addLine (line : HistoryLine)
  | updateLine (tx : String) (values : FieldChanges)

/-- Apply one public mutating operation to a model state. -/
def applyOp (m : HistoryItemModel) : Op → Except (String × Nat) HistoryItemModel
  | .setData h b d => set_data m h b d
  | .addLine l => add_line m l
  | .updateLine tx v => (update_line m tx v).map (·.model)

/-- The `TX_ICONS` table of `history_list.py`. -/
def TX_ICONS : List String :=
  ["unconfirmed.png", "unconfirmed.png", "unconfirmed.png", "unconfirmed.png",
   "clock1.png", "clock2.png", "clock3.png", "clock4.png", "clock5.png", "confirmed.png"]

/-- `HistoryView._get_tx_status(tx_hash, height, conf, timestamp)`.  The
`self._wallet.has_received_transaction(tx_hash)` lookup is abstracted as the
boolean `has_tx`; `timestamp` is unused by the Python function body. -/
def get_tx_status (has_tx : Bool) (height conf : Int) : Int :=
  if conf = 0 then
    if !has_tx then 3
    else if height < 0 then 0
    else if height = 0 then 1
    else 2
  else 3 + min conf 6

/-! ## Specification-side definitions -/

/-- Running prefix sums with a seed accumulator: `prefixSumsInt b [v₀, v₁, …]` is
`[b + v₀, b + v₀ + v₁, …]`. -/
def prefixSumsInt (acc : Int) : List Int → List Int
  | [] => []
  | v :: rest => (acc + v) :: prefixSumsInt (acc + v) rest

/-- The balances list demanded by the balance invariant: `balances[i]` is the sum of
`records[0..i].value`. -/
def prefixSums (data : List HistoryLine) : List Int :=
  prefixSumsInt 0 (data.map (·.value))

/-- The balance invariant of the projection: the balances list is exactly the list of
prefix sums of the record values (hence of equal length). -/
def balInv (m : HistoryItemModel) : Prop :=
  m.balances = prefixSums m.data

/-- Boolean adjacent-pairs check that a record list is non-decreasing by sort key. -/
def sortedByKeyB : List HistoryLine → Bool
  | [] => true
  | [_] => true
  | a :: b :: rest =>
      keyLe (get_sort_key a) (get_sort_key b) && sortedByKeyB (b :: rest)

/-- A record list is non-decreasing by `_get_sort_key`. -/
def sortedByKey (l : List HistoryLine) : Prop := sortedByKeyB l = true

instance (l : List HistoryLine) : Decidable (sortedByKey l) := by
  unfold sortedByKey; infer_instance

instance (m : HistoryItemModel) : Decidable (balInv m) := by
  unfold balInv; infer_instance

/-! ## List helper lemmas -/

theorem getD_eq_get {α} {l : List α} {i : Nat} (h : i < l.length) (d : α) :
    l.getD i d = l.get ⟨i, h⟩ := by
  induction l generalizing i with
  | nil => simp at h
  | cons x xs ih =>
    cases i with
    | zero => rfl
    | succ j =>
      rw [List.getD_cons_succ, ih (by simpa using h)]
      rfl

theorem getD_append {α} (l l' : List α) (i : Nat) (d : α) :
    (l ++ l').getD i d = if i < l.length then l.getD i d else l'.getD (i - l.length) d := by
  induction l generalizing i with
  | nil => simp
  | cons x xs ih =>
    cases i with
    | zero => simp
    | succ j =>
      rw [List.cons_append, List.getD_cons_succ, ih j, List.length_cons]
      by_cases hj : j < xs.length
      · rw [if_pos hj, if_pos (by omega), List.getD_cons_succ]
      · rw [if_neg hj, if_neg (by omega)]
        congr 1
        omega

theorem getD_take_of_lt {α} (l : List α) (n i : Nat) (d : α) (h : i < n) :
    (l.take n).getD i d = l.getD i d := by
  induction l generalizing n i with
  | nil => simp
  | cons x xs ih =>
    cases n with
    | zero => omega
    | succ m =>
      cases i with
      | zero => simp
      | succ j => simpa using ih m j (by omega)

theorem take_eraseIdx_of_le {α} (l : List α) (r k : Nat) (h : k ≤ r) :
    (l.eraseIdx r).take k = l.take k := by
  induction l generalizing r k with
  | nil => simp
  | cons x xs ih =>
    cases r with
    | zero =>
      have hk : k = 0 := by omega
      simp [hk]
    | succ r' =>
      cases k with
      | zero => simp
      | succ k' => simp [List.eraseIdx_cons_succ, ih r' k' (by omega)]

theorem take_insertIdx_self {α} (l : List α) (p : Nat) (a : α) (h : p ≤ l.length) :
    (l.insertIdx p a).take p = l.take p := by
  induction l generalizing p with
  | nil =>
    have hp : p = 0 := by simpa using h
    simp [hp]
  | cons x xs ih =>
    cases p with
    | zero => simp
    | succ q => simp [List.insertIdx_succ_cons, ih q (by simpa using h)]

theorem take_set_succ {α} (l : List α) (i : Nat) (a : α) (h : i < l.length) :
    (l.set i a).take (i + 1) = l.take i ++ [a] := by
  induction l generalizing i with
  | nil => simp at h
  | cons x xs ih =>
    cases i with
    | zero => simp
    | succ j => simp [ih j (by simpa using h)]

theorem set_getD_self {α} (l : List α) (i : Nat) (d : α) (h : i < l.length) :
    l.set i (l.getD i d) = l := by
  induction l generalizing i with
  | nil => simp at h
  | cons x xs ih =>
    cases i with
    | zero => simp
    | succ j =>
      rw [List.getD_cons_succ, List.set_cons_succ, ih j (by simpa using h)]

theorem eraseIdx_set_self {α} (l : List α) (i : Nat) (a : α) :
    (l.set i a).eraseIdx i = l.eraseIdx i := by
  induction l generalizing i with
  | nil => simp
  | cons x xs ih =>
    cases i with
    | zero => simp
    | succ j => simp [List.eraseIdx_cons_succ, ih j]

theorem getD_insertIdx {α} (l : List α) (p : Nat) (a d : α) (hp : p ≤ l.length) (j : Nat) :
    (l.insertIdx p a).getD j d =
      if j < p then l.getD j d else if j = p then a else l.getD (j - 1) d := by
  induction l generalizing p j with
  | nil =>
    have h0 : p = 0 := by simpa using hp
    subst h0
    cases j <;> simp
  | cons x xs ih =>
    cases p with
    | zero => cases j <;> simp
    | succ q =>
      cases j with
      | zero => simp
      | succ i =>
        rw [List.insertIdx_succ_cons]
        simp only [List.getD_cons_succ]
        rw [ih q (by simpa using hp) i]
        by_cases h1 : i < q
        · simp [h1, Nat.succ_lt_succ_iff]
        · by_cases h2 : i = q
          · simp [h1, h2]
          · have hi1 : 1 ≤ i := by omega
            have : ¬ i + 1 < q + 1 := by omega
            have : ¬ i + 1 = q + 1 := by omega
            simp only [if_neg h1, if_neg h2, if_neg ‹¬ i + 1 < q + 1›, if_neg ‹¬ i + 1 = q + 1›]
            have hj : i + 1 - 1 = (i - 1) + 1 := by omega
            rw [hj, List.getD_cons_succ]

theorem getD_set_if {α} (l : List α) (i : Nat) (a d : α) (j : Nat) :
    (l.set i a).getD j d = if i = j ∧ i < l.length then a else l.getD j d := by
  induction l generalizing i j with
  | nil => simp
  | cons x xs ih =>
    cases i with
    | zero =>
      cases j with
      | zero => simp
      | succ n => simp
    | succ s =>
      cases j with
      | zero => simp
      | succ n =>
        simp only [List.set_cons_succ, List.getD_cons_succ, ih s n, List.length_cons]
        by_cases h : s = n ∧ s < xs.length
        · simp [h, h.1, h.2, Nat.succ_lt_succ_iff]
        · have h' : ¬(s + 1 = n + 1 ∧ s + 1 < xs.length + 1) := by
            intro hc
            exact h ⟨by omega, by omega⟩
          rw [if_neg h, if_neg h']

theorem getLastD_append_right {α} (l l' : List α) (d : α) (h : l' ≠ []) :
    (l ++ l').getLastD d = l'.getLastD d := by
  induction l generalizing d with
  | nil => rfl
  | cons x xs ih =>
    rw [List.cons_append, List.getLastD_cons, ih x]
    cases l' with
    | nil => exact absurd rfl h
    | cons y ys => rw [List.getLastD_cons, List.getLastD_cons]

/-! ## Sort-key order lemmas -/

theorem keyLe_refl (a : Int × Int) : keyLe a a = true := by simp [keyLe]

theorem keyLe_trans {a b c : Int × Int} (h1 : keyLe a b = true) (h2 : keyLe b c = true) :
    keyLe a c = true := by
  simp only [keyLe, Bool.or_eq_true, Bool.and_eq_true, decide_eq_true_eq] at h1 h2 ⊢
  omega

theorem keyLe_total (a b : Int × Int) : keyLe a b = true ∨ keyLe b a = true := by
  simp only [keyLe, Bool.or_eq_true, Bool.and_eq_true, decide_eq_true_eq]
  omega

theorem keyLe_of_not_keyLe {a b : Int × Int} (h : keyLe a b = false) : keyLe b a = true := by
  rcases keyLe_total a b with h' | h'
  · rw [h'] at h; cases h
  · exact h'

/-! ## Prefix-sum lemmas -/

theorem prefixSumsInt_length (b : Int) (vals : List Int) :
    (prefixSumsInt b vals).length = vals.length := by
  induction vals generalizing b with
  | nil => rfl
  | cons v rest ih => simp [prefixSumsInt, ih]

theorem prefixSumsInt_append (b : Int) (v1 v2 : List Int) :
    prefixSumsInt b (v1 ++ v2) = prefixSumsInt b v1 ++ prefixSumsInt (b + v1.sum) v2 := by
  induction v1 generalizing b with
  | nil => simp [prefixSumsInt]
  | cons v rest ih => simp [prefixSumsInt, ih, add_assoc]

theorem prefixSumsInt_getD (b d : Int) (vals : List Int) (j : Nat) (h : j < vals.length) :
    (prefixSumsInt b vals).getD j d = b + (vals.take (j + 1)).sum := by
  induction vals generalizing b j with
  | nil => simp at h
  | cons v rest ih =>
    cases j with
    | zero => simp [prefixSumsInt]
    | succ i =>
      rw [prefixSumsInt, List.getD_cons_succ, ih (b + v) i (by simpa using h),
        List.take_succ_cons, List.sum_cons, add_assoc]

theorem prefixSumsInt_getLastD (b d : Int) (vals : List Int) (h : vals ≠ []) :
    (prefixSumsInt b vals).getLastD d = b + vals.sum := by
  induction vals generalizing b d with
  | nil => exact absurd rfl h
  | cons v rest ih =>
    cases rest with
    | nil => simp [prefixSumsInt]
    | cons w ws =>
      rw [prefixSumsInt, List.getLastD_cons, ih (b + v) (b + v) (by simp)]
      simp [add_assoc]

theorem prefixSumsInt_take (b : Int) (vals : List Int) (k : Nat) :
    (prefixSumsInt b vals).take k = prefixSumsInt b (vals.take k) := by
  induction vals generalizing b k with
  | nil => simp [prefixSumsInt]
  | cons v rest ih =>
    cases k with
    | zero => simp [prefixSumsInt]
    | succ j => simp [prefixSumsInt, ih]

theorem prefixSums_splice (data : List HistoryLine) (k : Nat) :
    prefixSums data =
      (prefixSums data).take k ++
        prefixSumsInt (((data.take k).map (·.value)).sum) ((data.drop k).map (·.value)) := by
  conv_lhs => rw [prefixSums, ← List.take_append_drop k data]
  rw [List.map_append, prefixSumsInt_append, zero_add]
  congr 1
  rw [prefixSums, prefixSumsInt_take, List.map_take]

/-! ## The `_calculate_balances` loop -/

theorem calcLoop_eq (rest : List HistoryLine) (i : Nat) (balances : List Int) (b : Int)
    (h : balances.length = i + rest.length) :
    calcLoop rest i balances b =
      balances.take i ++ prefixSumsInt b (rest.map (·.value)) := by
  induction rest generalizing i balances b with
  | nil =>
    rw [calcLoop]
    have hbi : balances.length ≤ i := by simp at h; omega
    simp [prefixSumsInt, List.take_of_length_le hbi]
  | cons line rest ih =>
    rw [calcLoop, ih (i + 1) _ _ (by rw [List.length_set]; simp at h; omega),
      take_set_succ _ _ _ (by simp at h; omega)]
    simp [prefixSumsInt]

theorem calcFrom_eq (data : List HistoryLine) (balances : List Int) (b : Int) (i : Nat)
    (hlen : balances.length = data.length) (hi : i ≤ data.length) :
    calcFrom data balances b i =
      balances.take i ++ prefixSumsInt b ((data.drop i).map (·.value)) := by
  unfold calcFrom
  exact calcLoop_eq _ _ _ _ (by simp [hlen]; omega)

/-- Core correctness of `_calculate_balances`: if the balances list has the right
length and agrees with the true prefix sums strictly below `k`, recomputing from
row `k` rebuilds exactly the prefix-sums list and the final consistency check
passes. -/
theorem calculate_balances_ok (m : HistoryItemModel) (k : Nat)
    (hlen : m.balances.length = m.data.length) (hk : k ≤ m.data.length)
    (hpre : m.balances.take k = (prefixSums m.data).take k) :
    calculate_balances m k = Except.ok { m with balances := prefixSums m.data } := by
  by_cases hd : m.data.length = 0
  · have hdata : m.data = [] := List.length_eq_zero.mp hd
    have hbal : m.balances = [] := List.length_eq_zero.mp (by omega)
    rw [calculate_balances, if_pos hd]
    obtain ⟨d, bs, hh, bb⟩ := m
    simp only at hdata hbal
    subst hdata hbal
    simp [prefixSums, prefixSumsInt]
  · have hdne : m.data ≠ [] := fun hc => hd (by simp [hc])
    have hmapne : m.data.map (·.value) ≠ [] := by simpa using hdne
    have hbody : (if k = 0 then calcFrom m.data m.balances 0 0
        else calcFrom m.data m.balances (m.balances.getD (k - 1) 0) k) =
        prefixSums m.data := by
      by_cases hk0 : k = 0
      · rw [if_pos hk0, calcFrom_eq _ _ _ _ hlen (by omega)]
        simp [prefixSums]
      · rw [if_neg hk0, calcFrom_eq _ _ _ _ hlen hk]
        have hk1 : k - 1 < k := by omega
        have hklen : k - 1 < m.data.length := by omega
        have hseed : m.balances.getD (k - 1) 0 = ((m.data.take k).map (·.value)).sum := by
          rw [← getD_take_of_lt m.balances k (k - 1) 0 hk1, hpre,
            getD_take_of_lt _ k (k - 1) 0 hk1, prefixSums,
            prefixSumsInt_getD _ _ _ _ (by simpa using hklen), zero_add,
            show k - 1 + 1 = k by omega, List.map_take]
        rw [hseed, hpre, ← prefixSums_splice]
    rw [calculate_balances, if_neg hd]
    simp only [hbody]
    have hlast : (prefixSums m.data).getLastD 0 = sumVals m.data := by
      rw [prefixSums, prefixSumsInt_getLastD _ _ _ hmapne, zero_add, sumVals]
    rw [if_neg (by rw [hlast]; exact fun hc => hc rfl)]

/-- `set_data` stores the given data list as-is (no sorting) and rebuilds the whole
balances list as prefix sums; it never fails. -/
theorem set_data_eq (m : HistoryItemModel) (h b : Int) (d : List HistoryLine) :
    set_data m h b d = Except.ok ⟨d, prefixSums d, h, b⟩ := by
  rw [set_data, reset_balances]
  rw [calculate_balances_ok _ 0 (by simp) (by simp) (by simp)]

/-! ## `_get_row` -/

theorem get_row_list_spec (data : List HistoryLine) (tx : String) (row : Nat)
    (h : get_row_list data tx = some row) :
    row < data.length ∧ (data.getD row default).tx_hash = tx := by
  induction data generalizing row with
  | nil => simp [get_row_list] at h
  | cons line rest ih =>
    rw [get_row_list] at h
    by_cases he : line.tx_hash = tx
    · rw [if_pos he] at h
      cases h
      simpa using he
    · rw [if_neg he] at h
      cases hrec : get_row_list rest tx with
      | none => rw [hrec] at h; cases h
      | some r =>
        rw [hrec] at h
        cases h
        obtain ⟨h1, h2⟩ := ih r hrec
        exact ⟨by simpa using h1, by simpa using h2⟩

theorem get_row_list_none (data : List HistoryLine) (tx : String)
    (h : ∀ l ∈ data, l.tx_hash ≠ tx) : get_row_list data tx = none := by
  induction data with
  | nil => rfl
  | cons line rest ih =>
    rw [get_row_list, if_neg (h line (by simp)), ih fun l hl => h l (by simp [hl])]
    rfl

/-! ## `_get_match_row` -/

theorem matchRowDown_spec (data : List HistoryLine) (k : Int × Int) (n : Nat) :
    (matchRowDown data k n = -1 ∧
      ∀ j, j < n → keyLe (get_sort_key (data.getD j default)) k = false) ∨
    (∃ i, i < n ∧ matchRowDown data k n = (i : Int) ∧
      keyLe (get_sort_key (data.getD i default)) k = true ∧
      ∀ j, i < j → j < n → keyLe (get_sort_key (data.getD j default)) k = false) := by
  induction n with
  | zero => exact Or.inl ⟨rfl, fun j hj => absurd hj (by omega)⟩
  | succ n ih =>
    by_cases hc : keyLe (get_sort_key (data.getD n default)) k = true
    · refine Or.inr ⟨n, by omega, ?_, hc, fun j h1 h2 => absurd (by omega : j < n) (by omega)⟩
      rw [matchRowDown, if_pos hc]
    · have hcf : keyLe (get_sort_key (data.getD n default)) k = false :=
        Bool.eq_false_iff.mpr hc
      rcases ih with ⟨h1, h2⟩ | ⟨i, hi, heq, htrue, hfalse⟩
      · refine Or.inl ⟨?_, fun j hj => ?_⟩
        · rw [matchRowDown, if_neg hc, h1]
        · by_cases hj' : j < n
          · exact h2 j hj'
          · have : j = n := by omega
            rw [this]; exact hcf
      · refine Or.inr ⟨i, by omega, ?_, htrue, fun j h1 h2 => ?_⟩
        · rw [matchRowDown, if_neg hc, heq]
        · by_cases hj' : j < n
          · exact hfalse j h1 hj'
          · have : j = n := by omega
            rw [this]; exact hcf

/-- If index `i` satisfies the scan condition and everything above it does not, the
backward scan returns exactly `i`. -/
theorem matchRowDown_eq (data : List HistoryLine) (k : Int × Int) (i : Nat)
    (hi : i < data.length)
    (htrue : keyLe (get_sort_key (data.getD i default)) k = true)
    (hfalse : ∀ j, i < j → j < data.length →
      keyLe (get_sort_key (data.getD j default)) k = false) :
    matchRowDown data k data.length = (i : Int) := by
  rcases matchRowDown_spec data k data.length with ⟨_, hall⟩ | ⟨i', hi', heq, htrue', hfalse'⟩
  · rw [hall i hi] at htrue; cases htrue
  · rcases Nat.lt_trichotomy i i' with hlt | heqn | hgt
    · rw [hfalse i' hlt hi'] at htrue'; cases htrue'
    · rw [heq, heqn]
    · rw [hfalse' i hgt hi] at htrue; cases htrue

/-! ## Sortedness -/

theorem sortedByKey_iff_pairwise (l : List HistoryLine) :
    sortedByKey l ↔
      l.Pairwise (fun a b => keyLe (get_sort_key a) (get_sort_key b) = true) := by
  induction l with
  | nil => simp [sortedByKey, sortedByKeyB]
  | cons a rest ih =>
    cases rest with
    | nil => simp [sortedByKey, sortedByKeyB]
    | cons b rest' =>
      have hunf : sortedByKey (a :: b :: rest') ↔
          (keyLe (get_sort_key a) (get_sort_key b) = true ∧ sortedByKey (b :: rest')) := by
        show (_ && _) = true ↔ _
        rw [Bool.and_eq_true]
        exact Iff.rfl
      rw [hunf, ih]
      constructor
      · rintro ⟨hab, hp⟩
        refine List.pairwise_cons.mpr ⟨fun c hc => ?_, hp⟩
        rcases List.mem_cons.mp hc with rfl | hc'
        · exact hab
        · exact keyLe_trans hab ((List.pairwise_cons.mp hp).1 c hc')
      · intro h
        obtain ⟨ha, hp⟩ := List.pairwise_cons.mp h
        exact ⟨ha b (by simp), hp⟩

theorem sorted_getD {data : List HistoryLine} (hs : sortedByKey data) {i j : Nat}
    (hij : i < j) (hj : j < data.length) :
    keyLe (get_sort_key (data.getD i default)) (get_sort_key (data.getD j default)) =
      true := by
  have hp := (sortedByKey_iff_pairwise data).mp hs
  have hi : i < data.length := by omega
  rw [getD_eq_get hi, getD_eq_get hj]
  exact List.pairwise_iff_get.mp hp ⟨i, hi⟩ ⟨j, hj⟩ hij

theorem sorted_of_getD {data : List HistoryLine}
    (h : ∀ i j, i < j → j < data.length →
      keyLe (get_sort_key (data.getD i default)) (get_sort_key (data.getD j default)) =
        true) :
    sortedByKey data := by
  rw [sortedByKey_iff_pairwise]
  refine List.pairwise_iff_get.mpr fun i j hij => ?_
  rw [← getD_eq_get i.isLt default, ← getD_eq_get j.isLt default]
  exact h i j hij j.isLt

/-! ## The insertion position of `_add_line` -/

/-- The insertion row computed by `_add_line`: `match_row + 1`. -/
def insertPos (m : HistoryItemModel) (line : HistoryLine) : Nat :=
  (get_match_row m line + 1).toNat

theorem insertPos_le (m : HistoryItemModel) (line : HistoryLine) :
    insertPos m line ≤ m.data.length := by
  unfold insertPos get_match_row
  rcases matchRowDown_spec m.data (get_sort_key line) m.data.length with
    ⟨h1, _⟩ | ⟨i, hi, heq, _, _⟩
  · rw [h1]; simp
  · rw [heq]
    have : ((i : Int) + 1).toNat = i + 1 := by omega
    omega

/-- Every row at or after the insertion position has a key strictly greater than the
inserted line's key. -/
theorem insertPos_gt (m : HistoryItemModel) (line : HistoryLine) (j : Nat)
    (h1 : insertPos m line ≤ j) (h2 : j < m.data.length) :
    keyLe (get_sort_key (m.data.getD j default)) (get_sort_key line) = false := by
  unfold insertPos get_match_row at h1
  rcases matchRowDown_spec m.data (get_sort_key line) m.data.length with
    ⟨hm, hall⟩ | ⟨i, hi, heq, _, hfalse⟩
  · exact hall j h2
  · rw [heq] at h1
    exact hfalse j (by omega) h2

/-- Below the insertion position every key is at most the inserted line's key,
provided the data is sorted. -/
theorem insertPos_le_key (m : HistoryItemModel) (line : HistoryLine)
    (hs : sortedByKey m.data) (j : Nat) (hj : j < insertPos m line) :
    keyLe (get_sort_key (m.data.getD j default)) (get_sort_key line) = true := by
  unfold insertPos get_match_row at hj
  rcases matchRowDown_spec m.data (get_sort_key line) m.data.length with
    ⟨hm, _⟩ | ⟨i, hi, heq, htrue, _⟩
  · rw [hm] at hj; omega
  · rw [heq] at hj
    have hji : j ≤ i := by omega
    rcases Nat.lt_or_ge j i with hlt | hge
    · exact keyLe_trans (sorted_getD hs hlt hi) htrue
    · have : j = i := by omega
      rw [this]; exact htrue

theorem add_line_impl_append (m : HistoryItemModel) (line : HistoryLine)
    (hc : (get_match_row m line + 1).toNat = m.data.length) :
    add_line_impl m line =
      ({ m with data := m.data ++ [line],
                balances := m.balances ++ [m.balances.getLastD 0] },
       (get_match_row m line + 1).toNat) := by
  rw [add_line_impl]
  simp only [if_pos hc]

theorem add_line_impl_mid (m : HistoryItemModel) (line : HistoryLine)
    (hc : ¬ (get_match_row m line + 1).toNat = m.data.length) :
    add_line_impl m line =
      ({ m with data := m.data.insertIdx ((get_match_row m line + 1).toNat) line,
                balances := m.balances.insertIdx ((get_match_row m line + 1).toNat) 0 },
       (get_match_row m line + 1).toNat) := by
  rw [add_line_impl]
  simp only [if_neg hc]

/-- `_add_line` always inserts the new line at `insertPos` in the data list. -/
theorem add_line_impl_data (m : HistoryItemModel) (line : HistoryLine) :
    (add_line_impl m line).1.data = m.data.insertIdx (insertPos m line) line ∧
    (add_line_impl m line).2 = insertPos m line ∧
    (add_line_impl m line).1.height = m.height ∧
    (add_line_impl m line).1.balance = m.balance := by
  by_cases hc : (get_match_row m line + 1).toNat = m.data.length
  · rw [add_line_impl_append m line hc]
    refine ⟨?_, rfl, rfl, rfl⟩
    show m.data ++ [line] = _
    rw [insertPos, hc, List.insertIdx_length_self]
  · rw [add_line_impl_mid m line hc]
    exact ⟨rfl, rfl, rfl, rfl⟩

/-- When the balances list is aligned with the data list, `_add_line` grows it by one
entry and leaves it unchanged strictly below the insertion position. -/
theorem add_line_impl_balances (m : HistoryItemModel) (line : HistoryLine)
    (hlen : m.balances.length = m.data.length) :
    (add_line_impl m line).1.balances.length = m.data.length + 1 ∧
    (add_line_impl m line).1.balances.take (insertPos m line) =
      m.balances.take (insertPos m line) := by
  have hp := insertPos_le m line
  by_cases hc : (get_match_row m line + 1).toNat = m.data.length
  · rw [add_line_impl_append m line hc]
    constructor
    · show (m.balances ++ [m.balances.getLastD 0]).length = _
      simp [hlen]
    · show (m.balances ++ [m.balances.getLastD 0]).take (insertPos m line) = _
      rw [List.take_append_of_le_length (by rw [hlen]; exact insertPos_le m line)]
  · rw [add_line_impl_mid m line hc]
    constructor
    · show (m.balances.insertIdx (insertPos m line) 0).length = _
      rw [List.length_insertIdx _ _ (by omega), hlen]
    · show (m.balances.insertIdx (insertPos m line) 0).take (insertPos m line) = _
      exact take_insertIdx_self _ _ _ (by omega)

/-- Inserting at `insertPos` preserves sortedness. -/
theorem sorted_insert_insertPos (m : HistoryItemModel) (line : HistoryLine)
    (hs : sortedByKey m.data) :
    sortedByKey (m.data.insertIdx (insertPos m line) line) := by
  have hp := insertPos_le m line
  have hlen : (m.data.insertIdx (insertPos m line) line).length = m.data.length + 1 :=
    List.length_insertIdx _ _ hp
  refine sorted_of_getD fun i j hij hj => ?_
  rw [hlen] at hj
  rw [getD_insertIdx _ _ _ _ hp, getD_insertIdx _ _ _ _ hp]
  by_cases hjp : j < insertPos m line
  · rw [if_pos hjp, if_pos (by omega)]
    exact sorted_getD hs hij (by omega)
  · rw [if_neg hjp]
    by_cases hjeq : j = insertPos m line
    · rw [if_pos hjeq, if_pos (by omega)]
      exact insertPos_le_key m line hs i (by omega)
    · rw [if_neg hjeq]
      have hj1 : insertPos m line ≤ j - 1 := by omega
      have hj1' : j - 1 < m.data.length := by omega
      have hgt := insertPos_gt m line (j - 1) hj1 hj1'
      by_cases hip : i < insertPos m line
      · rw [if_pos hip]
        exact keyLe_trans (insertPos_le_key m line hs i hip) (keyLe_of_not_keyLe hgt)
      · by_cases hieq : i = insertPos m line
        · rw [if_neg hip, if_pos hieq]
          exact keyLe_of_not_keyLe hgt
        · rw [if_neg hip, if_neg hieq]
          exact sorted_getD hs (by omega) hj1'

/-- Replacing a row by a line with an equal sort key preserves sortedness. -/
theorem sorted_set_same_key (data : List HistoryLine) (row : Nat)
    (new_line : HistoryLine) (hs : sortedByKey data)
    (hkey : get_sort_key new_line = get_sort_key (data.getD row default)) :
    sortedByKey (data.set row new_line) := by
  refine sorted_of_getD fun i j hij hj => ?_
  rw [List.length_set] at hj
  rw [getD_set_if, getD_set_if]
  by_cases hi : row = i ∧ row < data.length
  · rw [if_pos hi]
    have hj' : ¬(row = j ∧ row < data.length) := by omega
    rw [if_neg hj', hkey, hi.1]
    exact sorted_getD hs hij hj
  · rw [if_neg hi]
    by_cases hjc : row = j ∧ row < data.length
    · rw [if_pos hjc, hkey, hjc.1]
      exact sorted_getD hs hij hj
    · rw [if_neg hjc]
      exact sorted_getD hs hij hj

/-- Removing a row preserves sortedness. -/
theorem sorted_eraseIdx (data : List HistoryLine) (row : Nat) (hs : sortedByKey data) :
    sortedByKey (data.eraseIdx row) := by
  rw [sortedByKey_iff_pairwise] at hs ⊢
  exact hs.sublist (List.eraseIdx_sublist data row)

/-! ## Operation-level lemmas -/

theorem balInv_length {m : HistoryItemModel} (h : balInv m) :
    m.balances.length = m.data.length := by
  rw [h, prefixSums, prefixSumsInt_length, List.length_map]

theorem take_eq_of_take_eq {α} {A B : List α} {p k : Nat} (hk : k ≤ p)
    (h : A.take p = B.take p) : A.take k = B.take k := by
  have h1 : A.take k = (A.take p).take k := by rw [List.take_take, Nat.min_eq_left hk]
  have h2 : B.take k = (B.take p).take k := by rw [List.take_take, Nat.min_eq_left hk]
  rw [h1, h2, h]

theorem prefixSums_take_eq (d1 d2 : List HistoryLine) (k : Nat)
    (h : d1.take k = d2.take k) : (prefixSums d1).take k = (prefixSums d2).take k := by
  rw [prefixSums, prefixSums, prefixSumsInt_take, prefixSumsInt_take, ← List.map_take,
    ← List.map_take, h]

theorem applyChanges_empty (line : HistoryLine) (v : FieldChanges)
    (hv : v.isEmptyMap = true) : applyChanges line v = line := by
  obtain ⟨a, b, c, d, e⟩ := v
  simp only [FieldChanges.isEmptyMap, Bool.and_eq_true, Option.isNone_iff_eq_none] at hv
  obtain ⟨⟨⟨⟨ha, hb⟩, hc⟩, hd⟩, he⟩ := hv
  subst ha hb hc hd he
  rfl

/-- `calculate_balances` never changes the data list or the scalar fields. -/
theorem calculate_balances_frame (m : HistoryItemModel) (k : Nat) (r : HistoryItemModel)
    (h : calculate_balances m k = Except.ok r) :
    r.data = m.data ∧ r.height = m.height ∧ r.balance = m.balance := by
  rw [calculate_balances] at h
  by_cases hd : m.data.length = 0
  · rw [if_pos hd] at h
    cases h
    exact ⟨rfl, rfl, rfl⟩
  · rw [if_neg hd] at h
    simp only at h
    split_ifs at h <;> cases h <;> exact ⟨rfl, rfl, rfl⟩

/-- `add_line` from a state satisfying the balance invariant: it inserts at
`insertPos` and rebuilds the balances into exact prefix sums, never failing. -/
theorem add_line_ok (m : HistoryItemModel) (line : HistoryLine) (hinv : balInv m) :
    add_line m line =
      Except.ok ⟨m.data.insertIdx (insertPos m line) line,
        prefixSums (m.data.insertIdx (insertPos m line) line), m.height, m.balance⟩ := by
  have hlen : m.balances.length = m.data.length := balInv_length hinv
  have hp := insertPos_le m line
  obtain ⟨hdata, hpos, hh, hb⟩ := add_line_impl_data m line
  obtain ⟨hblen, hbtake⟩ := add_line_impl_balances m line hlen
  show calculate_balances (add_line_impl m line).1 (add_line_impl m line).2 = _
  rw [hpos]
  have hdlen : (add_line_impl m line).1.data.length = m.data.length + 1 := by
    rw [hdata, List.length_insertIdx _ _ hp]
  have hpre : (add_line_impl m line).1.balances.take (insertPos m line) =
      (prefixSums (add_line_impl m line).1.data).take (insertPos m line) := by
    rw [hbtake, hdata, hinv]
    exact prefixSums_take_eq _ _ _ (take_insertIdx_self _ _ _ hp).symm
  rw [calculate_balances_ok _ (insertPos m line) (by rw [hblen, hdlen])
    (by rw [hdlen]; omega) hpre]
  rw [hdata, hh, hb]

/-! ## `update_line` branch equations -/

theorem update_line_not_found (m : HistoryItemModel) (tx : String) (values : FieldChanges)
    (h : get_row m tx = none) :
    update_line m tx values = Except.ok ⟨m, false, []⟩ := by
  simp only [update_line, h]

theorem update_line_same_key_eq (m : HistoryItemModel) (tx : String)
    (values : FieldChanges) (row : Nat) (h : get_row m tx = some row)
    (hrl : row < m.data.length)
    (hkey : get_sort_key (m.data.getD row default) =
            get_sort_key (applyChanges (m.data.getD row default) values)) :
    update_line m tx values =
      Except.ok ⟨{ m with
          data := m.data.set row (applyChanges (m.data.getD row default) values) },
        true, [(row, row)]⟩ := by
  simp only [update_line, h]
  by_cases hv : values.isEmptyMap
  · rw [if_pos hv, applyChanges_empty _ _ hv, set_getD_self _ _ _ hrl]
  · rw [if_neg hv, if_neg (by rw [not_not]; exact hkey)]

theorem update_line_key_change_eq (m : HistoryItemModel) (tx : String)
    (values : FieldChanges) (row : Nat) (h : get_row m tx = some row)
    (hv : ¬ values.isEmptyMap)
    (hkey : get_sort_key (m.data.getD row default) ≠
            get_sort_key (applyChanges (m.data.getD row default) values)) :
    update_line m tx values =
      (calculate_balances
        (add_line_impl
          { m with data := m.data.eraseIdx row, balances := m.balances.eraseIdx row }
          (applyChanges (m.data.getD row default) values)).1
        (min (add_line_impl
          { m with data := m.data.eraseIdx row, balances := m.balances.eraseIdx row }
          (applyChanges (m.data.getD row default) values)).2 row)).map
        (fun m4 => ⟨m4, true, []⟩) := by
  simp only [update_line, h]
  rw [if_neg hv, if_pos hkey]
  rw [remove_line]
  simp only [eraseIdx_set_self]

/-! ## Preservation of the balance and sort invariants -/

theorem getD_map_value (data : List HistoryLine) (row : Nat) (h : row < data.length) :
    (data.map (·.value)).getD row 0 = (data.getD row default).value := by
  rw [getD_eq_get (by simpa using h) 0, getD_eq_get h default]
  simp

theorem prefixSums_set_same_value (data : List HistoryLine) (row : Nat)
    (new_line : HistoryLine) (h : row < data.length)
    (hval : new_line.value = (data.getD row default).value) :
    prefixSums (data.set row new_line) = prefixSums data := by
  rw [prefixSums, prefixSums, List.map_set, hval, ← getD_map_value data row h,
    set_getD_self _ _ _ (by simpa using h)]

theorem balInv_pointwise {m : HistoryItemModel} (h : balInv m) :
    m.balances.length = m.data.length ∧
    ∀ i (hi : i < m.balances.length),
      m.balances.get ⟨i, hi⟩ = sumVals (m.data.take (i + 1)) := by
  refine ⟨balInv_length h, fun i hi => ?_⟩
  have hlen := balInv_length h
  rw [← getD_eq_get hi 0, h, prefixSums,
    prefixSumsInt_getD _ _ _ _ (by rw [List.length_map]; omega), zero_add, sumVals,
    List.map_take]

/-- `update_line` from a state with the balance invariant: provided a same-key update
does not change the record's value, it succeeds and preserves the invariant. -/
theorem update_line_balInv (m : HistoryItemModel) (tx : String) (values : FieldChanges)
    (hinv : balInv m)
    (hsafe : ∀ row, get_row m tx = some row →
      get_sort_key (applyChanges (m.data.getD row default) values) =
        get_sort_key (m.data.getD row default) →
      (applyChanges (m.data.getD row default) values).value =
        (m.data.getD row default).value) :
    ∃ r : UpdateResult, update_line m tx values = Except.ok r ∧ balInv r.model := by
  cases hrow : get_row m tx with
  | none => exact ⟨⟨m, false, []⟩, update_line_not_found m tx values hrow, hinv⟩
  | some row =>
    obtain ⟨hrl, -⟩ := get_row_list_spec m.data tx row hrow
    by_cases hkey : get_sort_key (m.data.getD row default) =
        get_sort_key (applyChanges (m.data.getD row default) values)
    · refine ⟨_, update_line_same_key_eq m tx values row hrow hrl hkey, ?_⟩
      show m.balances =
        prefixSums (m.data.set row (applyChanges (m.data.getD row default) values))
      rw [prefixSums_set_same_value _ _ _ hrl (hsafe row hrow hkey.symm)]
      exact hinv
    · have hv : ¬ values.isEmptyMap = true := fun hemp =>
        hkey (by rw [applyChanges_empty _ _ hemp])
      rw [update_line_key_change_eq m tx values row hrow hv hkey]
      set new := applyChanges (m.data.getD row default) values with hnew
      set m2 : HistoryItemModel :=
        { m with data := m.data.eraseIdx row, balances := m.balances.eraseIdx row }
        with hm2
      have hlen : m.balances.length = m.data.length := balInv_length hinv
      have hlen2 : m2.balances.length = m2.data.length := by
        rw [hm2]
        show (m.balances.eraseIdx row).length = (m.data.eraseIdx row).length
        rw [List.length_eraseIdx_of_lt (by omega), List.length_eraseIdx_of_lt hrl, hlen]
      obtain ⟨hdata3, hpos, -, -⟩ := add_line_impl_data m2 new
      obtain ⟨hblen3, hbtake3⟩ := add_line_impl_balances m2 new hlen2
      have hp2 := insertPos_le m2 new
      rw [hpos]
      set p := insertPos m2 new with hip
      set k := min p row with hkdef
      have hk_le_p : k ≤ p := by omega
      have hk_le_row : k ≤ row := by omega
      have hd2len : m2.data.length = m.data.length - 1 := by
        rw [hm2]
        show (m.data.eraseIdx row).length = _
        rw [List.length_eraseIdx_of_lt hrl]
      have hXlen : (add_line_impl m2 new).1.balances.length =
          (add_line_impl m2 new).1.data.length := by
        rw [hblen3, hdata3, List.length_insertIdx _ _ hp2]
      have hXdlen : (add_line_impl m2 new).1.data.length = m2.data.length + 1 := by
        rw [hdata3, List.length_insertIdx _ _ hp2]
      have htake_data : (add_line_impl m2 new).1.data.take k = m.data.take k := by
        rw [hdata3,
          take_eq_of_take_eq hk_le_p (take_insertIdx_self _ _ _ hp2), hm2]
        show (m.data.eraseIdx row).take k = _
        exact take_eraseIdx_of_le _ _ _ hk_le_row
      have htake_bal : (add_line_impl m2 new).1.balances.take k = m.balances.take k := by
        rw [take_eq_of_take_eq hk_le_p hbtake3, hm2]
        show (m.balances.eraseIdx row).take k = _
        exact take_eraseIdx_of_le _ _ _ hk_le_row
      have hpreX : (add_line_impl m2 new).1.balances.take k =
          (prefixSums (add_line_impl m2 new).1.data).take k := by
        rw [htake_bal, hinv]
        exact prefixSums_take_eq _ _ _ htake_data.symm
      rw [calculate_balances_ok _ k hXlen (by omega) hpreX]
      exact ⟨_, rfl, rfl⟩

/-- Any successful `update_line` preserves sortedness of the data list. -/
theorem update_line_sorted_result (m : HistoryItemModel) (tx : String)
    (values : FieldChanges) (r : UpdateResult)
    (hs : sortedByKey m.data) (h : update_line m tx values = Except.ok r) :
    sortedByKey r.model.data := by
  cases hrow : get_row m tx with
  | none =>
    rw [update_line_not_found m tx values hrow] at h
    cases h
    exact hs
  | some row =>
    obtain ⟨hrl, -⟩ := get_row_list_spec m.data tx row hrow
    by_cases hkey : get_sort_key (m.data.getD row default) =
        get_sort_key (applyChanges (m.data.getD row default) values)
    · rw [update_line_same_key_eq m tx values row hrow hrl hkey] at h
      cases h
      exact sorted_set_same_key _ _ _ hs hkey.symm
    · have hv : ¬ values.isEmptyMap = true := fun hemp =>
        hkey (by rw [applyChanges_empty _ _ hemp])
      rw [update_line_key_change_eq m tx values row hrow hv hkey] at h
      set new := applyChanges (m.data.getD row default) values with hnew
      set m2 : HistoryItemModel :=
        { m with data := m.data.eraseIdx row, balances := m.balances.eraseIdx row }
        with hm2
      cases hml : calculate_balances (add_line_impl m2 new).1
          (min (add_line_impl m2 new).2 row) with
      | error e => rw [hml] at h; cases h
      | ok m4 =>
        rw [hml] at h
        cases h
        obtain ⟨hd4, -, -⟩ := calculate_balances_frame _ _ _ hml
        obtain ⟨hdata3, -, -, -⟩ := add_line_impl_data m2 new
        show sortedByKey m4.data
        rw [hd4, hdata3]
        refine sorted_insert_insertPos m2 new ?_
        show sortedByKey (m.data.eraseIdx row)
        exact sorted_eraseIdx m.data row hs

/-- The per-operation safety condition under which the balance invariant is
preserved: an `update_line` whose field changes leave the sort key unchanged must
also leave the record's value unchanged. -/
def opSafe (m : HistoryItemModel) : Op → Prop
  | .updateLine tx values => ∀ row, get_row m tx = some row →
      get_sort_key (applyChanges (m.data.getD row default) values) =
        get_sort_key (m.data.getD row default) →
      (applyChanges (m.data.getD row default) values).value =
        (m.data.getD row default).value
  | _ => True

theorem countP_insertIdx {α} (l : List α) (p : Nat) (a : α) (f : α → Bool)
    (hp : p ≤ l.length) :
    (l.insertIdx p a).countP f = l.countP f + if f a then 1 else 0 := by
  induction l generalizing p with
  | nil =>
    have h0 : p = 0 := by simpa using hp
    subst h0
    simp [List.countP_cons]
  | cons x xs ih =>
    cases p with
    | zero => simp [List.countP_cons]
    | succ q =>
      rw [List.insertIdx_succ_cons, List.countP_cons, List.countP_cons,
        ih q (by simpa using hp)]
      omega

/-! ## Claims -/

/-- C3 (amended): `set_data` replaces the record set with the input sequence exactly
as given — it does not sort; the caller is responsible for providing sorted input —
recomputes the full balance array as the prefix sums of the input order, and raises
no error on any input; in particular empty input yields the empty projection. -/
theorem c3_set_data (m : HistoryItemModel) (h b : Int) (d : List HistoryLine) :
    set_data m h b d = Except.ok ⟨d, prefixSums d, h, b⟩ :=
  set_data_eq m h b d

/-- C3 counterexample: loading an unsorted two-record sequence leaves the records in
the given order, not sorted ascending by sort key. -/
theorem c3_set_data_counterexample :
    set_data ⟨[], [], 0, 0⟩ 0 0 [⟨"b", 2, 1, 1, 0⟩, ⟨"a", 1, 1, 1, 0⟩] =
      Except.ok ⟨[⟨"b", 2, 1, 1, 0⟩, ⟨"a", 1, 1, 1, 0⟩], [1, 2], 0, 0⟩ ∧
    ¬ sortedByKey [⟨"b", 2, 1, 1, 0⟩, ⟨"a", 1, 1, 1, 0⟩] := by
  decide

/-- C5: for a non-empty record list, an aligned balances list and `from_row` in
range, the `_calculate_balances` loop seeds its accumulator with `0` when
`from_row = 0` and with `balances[from_row-1]` otherwise, rewrites exactly the
entries from `from_row` to the end to the accumulated partial sums, leaves the
entries below `from_row` unchanged, and the call raises the "Invalid balance detected"
exception if and only if the recomputed final balance differs from the sum of all
record values — otherwise it returns the recomputed state unchanged elsewhere. -/
theorem c5_calculate_balances (m : HistoryItemModel) (from_row : Nat) (seed : Int)
    (nb : List Int)
    (hne : m.data ≠ []) (hlen : m.balances.length = m.data.length)
    (hrange : from_row < m.data.length)
    (hseed : seed = if from_row = 0 then 0 else m.balances.getD (from_row - 1) 0)
    (hnb : nb = calcFrom m.data m.balances seed from_row) :
    nb.length = m.data.length ∧
    (∀ i, i < from_row → nb.getD i 0 = m.balances.getD i 0) ∧
    (∀ i, from_row ≤ i → i < m.data.length →
      nb.getD i 0 = seed + sumVals ((m.data.drop from_row).take (i + 1 - from_row))) ∧
    (calculate_balances m from_row =
        Except.error ("Invalid balance detected", from_row) ↔
      nb.getLastD 0 ≠ sumVals m.data) ∧
    (nb.getLastD 0 = sumVals m.data →
      calculate_balances m from_row = Except.ok { m with balances := nb }) := by
  have hfr_le : from_row ≤ m.data.length := le_of_lt hrange
  have hd0 : ¬ m.data.length = 0 := fun hc => hne (List.length_eq_zero.mp hc)
  have hnb' : nb = m.balances.take from_row ++
      prefixSumsInt seed ((m.data.drop from_row).map (·.value)) := by
    rw [hnb, calcFrom_eq _ _ _ _ hlen hfr_le]
  have htl : (m.balances.take from_row).length = from_row := by
    rw [List.length_take]
    omega
  have hdl : ((m.data.drop from_row).map (·.value)).length = m.data.length - from_row := by
    rw [List.length_map, List.length_drop]
  have hbeq : (if from_row = 0 then calcFrom m.data m.balances 0 0
      else calcFrom m.data m.balances (m.balances.getD (from_row - 1) 0) from_row) =
      nb := by
    by_cases h0 : from_row = 0
    · rw [if_pos h0, hnb, hseed, if_pos h0, h0]
    · rw [if_neg h0, hnb, hseed, if_neg h0]
  have hcb : calculate_balances m from_row =
      if sumVals m.data ≠ nb.getLastD 0 then
        Except.error ("Invalid balance detected", from_row)
      else Except.ok { m with balances := nb } := by
    rw [calculate_balances, if_neg hd0]
    simp only [hbeq]
  refine ⟨?_, ?_, ?_, ?_, ?_⟩
  · rw [hnb', List.length_append, htl, prefixSumsInt_length, hdl]
    omega
  · intro i hi
    rw [hnb', getD_append, htl, if_pos hi, getD_take_of_lt _ _ _ _ hi]
  · intro i h1 h2
    rw [hnb', getD_append, htl, if_neg (by omega),
      prefixSumsInt_getD _ _ _ _ (by rw [hdl]; omega)]
    rw [sumVals, List.map_take, show i - from_row + 1 = i + 1 - from_row by omega]
  · rw [hcb]
    by_cases hch : sumVals m.data ≠ nb.getLastD 0
    · rw [if_pos hch]
      exact iff_of_true rfl (Ne.symm hch)
    · rw [if_neg hch]
      have heq : sumVals m.data = nb.getLastD 0 := not_ne_iff.mp hch
      exact iff_of_false (fun hc => Except.noConfusion hc) (by rw [← heq]; exact fun hc => hc rfl)
  · intro hok
    rw [hcb, if_neg (fun hc => hc hok.symm)]

/-- C5 witness at a concrete two-record state with `from_row = 1`. -/
theorem c5_calculate_balances_witness :
    (([⟨"a", 1, 1, 5, 0⟩, ⟨"b", 2, 1, 3, 0⟩] : List HistoryLine) ≠ [] ∧
      ([5, 8] : List Int).length = 2 ∧ (1 : Nat) < 2) ∧
    (([5, 8] : List Int).length =
        (⟨[⟨"a", 1, 1, 5, 0⟩, ⟨"b", 2, 1, 3, 0⟩], [5, 8], 0, 0⟩ :
          HistoryItemModel).data.length ∧
      (∀ i, i < 1 → ([5, 8] : List Int).getD i 0 = ([5, 8] : List Int).getD i 0) ∧
      (∀ i, 1 ≤ i →
        i < (⟨[⟨"a", 1, 1, 5, 0⟩, ⟨"b", 2, 1, 3, 0⟩], [5, 8], 0, 0⟩ :
          HistoryItemModel).data.length →
        ([5, 8] : List Int).getD i 0 = 5 + sumVals
          (((⟨[⟨"a", 1, 1, 5, 0⟩, ⟨"b", 2, 1, 3, 0⟩], [5, 8], 0, 0⟩ :
            HistoryItemModel).data.drop 1).take (i + 1 - 1))) ∧
      (calculate_balances
          ⟨[⟨"a", 1, 1, 5, 0⟩, ⟨"b", 2, 1, 3, 0⟩], [5, 8], 0, 0⟩ 1 =
          Except.error ("Invalid balance detected", 1) ↔
        ([5, 8] : List Int).getLastD 0 ≠ sumVals
          (⟨[⟨"a", 1, 1, 5, 0⟩, ⟨"b", 2, 1, 3, 0⟩], [5, 8], 0, 0⟩ :
            HistoryItemModel).data) ∧
      (([5, 8] : List Int).getLastD 0 = sumVals
          (⟨[⟨"a", 1, 1, 5, 0⟩, ⟨"b", 2, 1, 3, 0⟩], [5, 8], 0, 0⟩ :
            HistoryItemModel).data →
        calculate_balances ⟨[⟨"a", 1, 1, 5, 0⟩, ⟨"b", 2, 1, 3, 0⟩], [5, 8], 0, 0⟩ 1 =
          Except.ok ⟨[⟨"a", 1, 1, 5, 0⟩, ⟨"b", 2, 1, 3, 0⟩], [5, 8], 0, 0⟩)) :=
  ⟨⟨by decide, by decide, by decide⟩,
    c5_calculate_balances ⟨[⟨"a", 1, 1, 5, 0⟩, ⟨"b", 2, 1, 3, 0⟩], [5, 8], 0, 0⟩ 1 5
      [5, 8] (by decide) (by decide) (by decide) (by decide) (by decide)⟩

/-- C7: `update_line` for an id that is not present returns the not-found outcome
`False`, emits no dirty range, and leaves the model (records and balances) exactly
as it was. -/
theorem c7_update_not_found (m : HistoryItemModel) (tx : String) (values : FieldChanges)
    (habsent : ∀ l ∈ m.data, l.tx_hash ≠ tx) :
    update_line m tx values = Except.ok ⟨m, false, []⟩ :=
  update_line_not_found m tx values (get_row_list_none m.data tx habsent)

/-- C7 witness: updating an unknown id on a one-record projection. -/
theorem c7_update_not_found_witness :
    (∀ l ∈ ([⟨"a", 1, 1, 5, 0⟩] : List HistoryLine), l.tx_hash ≠ "b") ∧
    update_line ⟨[⟨"a", 1, 1, 5, 0⟩], [5], 0, 0⟩ "b" ⟨none, none, none, some 7, none⟩ =
      Except.ok ⟨⟨[⟨"a", 1, 1, 5, 0⟩], [5], 0, 0⟩, false, []⟩ :=
  ⟨by decide, c7_update_not_found ⟨[⟨"a", 1, 1, 5, 0⟩], [5], 0, 0⟩ "b"
    ⟨none, none, none, some 7, none⟩ (by decide)⟩

/-- C9: inserting any record into the empty projection terminates without raising:
the backward scan returns `-1`, the record is appended at row `0`, and the balances
list becomes the single-element list holding that record's value. -/
theorem c9_add_line_empty (h b : Int) (line : HistoryLine) :
    get_match_row ⟨[], [], h, b⟩ line = -1 ∧
    (add_line_impl ⟨[], [], h, b⟩ line).2 = 0 ∧
    add_line ⟨[], [], h, b⟩ line = Except.ok ⟨[line], [line.value], h, b⟩ := by
  refine ⟨rfl, rfl, ?_⟩
  show calculate_balances ⟨[line], [0], h, b⟩ 0 = _
  rw [calculate_balances_ok ⟨[line], [0], h, b⟩ 0 rfl (by simp) rfl]
  simp [prefixSums, prefixSumsInt]

/-- C4: inserting two records A then B with identical sort keys and fresh distinct
ids into a valid sorted projection places A after all existing records of that key
and B immediately after A, so A occurs before B — ties are broken by insertion
order. -/
theorem c4_tie_break (m : HistoryItemModel) (A B : HistoryLine)
    (hinv : balInv m) (hs : sortedByKey m.data)
    (hkey : get_sort_key A = get_sort_key B)
    (hA : ∀ l ∈ m.data, l.tx_hash ≠ A.tx_hash)
    (hB : ∀ l ∈ m.data, l.tx_hash ≠ B.tx_hash)
    (hAB : A.tx_hash ≠ B.tx_hash) :
    ∃ m1 m2 : HistoryItemModel,
      add_line m A = Except.ok m1 ∧ add_line m1 B = Except.ok m2 ∧
      insertPos m A + 1 < m2.data.length ∧
      m2.data.getD (insertPos m A) default = A ∧
      m2.data.getD (insertPos m A + 1) default = B ∧
      (∀ j, j < m.data.length →
        get_sort_key (m.data.getD j default) = get_sort_key A → j < insertPos m A) := by
  set pA := insertPos m A with hpA_def
  have hpA := insertPos_le m A
  set d1 := m.data.insertIdx pA A with hd1_def
  set m1 : HistoryItemModel := ⟨d1, prefixSums d1, m.height, m.balance⟩ with hm1_def
  have h1 : add_line m A = Except.ok m1 := add_line_ok m A hinv
  have hinv1 : balInv m1 := rfl
  have hd1len : d1.length = m.data.length + 1 := by
    rw [hd1_def]
    exact List.length_insertIdx _ _ hpA
  have hd1_at : ∀ j, d1.getD j default =
      if j < pA then m.data.getD j default else if j = pA then A
      else m.data.getD (j - 1) default := by
    intro j
    rw [hd1_def]
    exact getD_insertIdx _ _ _ _ hpA j
  have hd1_pA : d1.getD pA default = A := by
    rw [hd1_at pA]
    simp
  have hd1_gt : ∀ j, pA < j → j < d1.length →
      keyLe (get_sort_key (d1.getD j default)) (get_sort_key B) = false := by
    intro j h1j h2j
    rw [hd1_at j, if_neg (by omega), if_neg (by omega), ← hkey]
    exact insertPos_gt m A (j - 1) (by omega) (by omega)
  have hmr : get_match_row m1 B = (pA : Int) := by
    show matchRowDown m1.data (get_sort_key B) m1.data.length = _
    show matchRowDown d1 (get_sort_key B) d1.length = _
    refine matchRowDown_eq d1 (get_sort_key B) pA (by omega) ?_ hd1_gt
    rw [hd1_pA, hkey]
    exact keyLe_refl _
  have hpB : insertPos m1 B = pA + 1 := by
    rw [insertPos, hmr]
    omega
  set d2 := d1.insertIdx (pA + 1) B with hd2_def
  set m2 : HistoryItemModel := ⟨d2, prefixSums d2, m.height, m.balance⟩ with hm2_def
  have h2 : add_line m1 B = Except.ok m2 := by
    have hok := add_line_ok m1 B hinv1
    rw [hpB] at hok
    exact hok
  have hd2len : d2.length = m.data.length + 2 := by
    rw [hd2_def, List.length_insertIdx _ _ (by omega), hd1len]
  have hd2_at : ∀ j, d2.getD j default =
      if j < pA + 1 then d1.getD j default else if j = pA + 1 then B
      else d1.getD (j - 1) default := by
    intro j
    rw [hd2_def]
    exact getD_insertIdx _ _ _ _ (by omega) j
  refine ⟨m1, m2, h1, h2, ?_, ?_, ?_, ?_⟩
  · show pA + 1 < d2.length
    rw [hd2len]
    omega
  · show d2.getD pA default = A
    rw [hd2_at pA, if_pos (by omega), hd1_pA]
  · show d2.getD (pA + 1) default = B
    rw [hd2_at (pA + 1), if_neg (by omega), if_pos rfl]
  · intro j hj hkj
    by_contra hcon
    push_neg at hcon
    have hfalse := insertPos_gt m A j hcon hj
    rw [hkj, keyLe_refl] at hfalse
    exact Bool.noConfusion hfalse

/-- C4 witness: two equal-key records inserted in order into the empty projection. -/
theorem c4_tie_break_witness :
    (balInv (⟨[], [], 0, 0⟩ : HistoryItemModel) ∧
      sortedByKey ([] : List HistoryLine) ∧
      get_sort_key ⟨"a", 1, 1, 5, 0⟩ = get_sort_key ⟨"b", 1, 1, 7, 0⟩ ∧
      ("a" : String) ≠ "b") ∧
    ∃ m1 m2 : HistoryItemModel,
      add_line ⟨[], [], 0, 0⟩ ⟨"a", 1, 1, 5, 0⟩ = Except.ok m1 ∧
      add_line m1 ⟨"b", 1, 1, 7, 0⟩ = Except.ok m2 ∧
      insertPos ⟨[], [], 0, 0⟩ ⟨"a", 1, 1, 5, 0⟩ + 1 < m2.data.length ∧
      m2.data.getD (insertPos ⟨[], [], 0, 0⟩ ⟨"a", 1, 1, 5, 0⟩) default =
        ⟨"a", 1, 1, 5, 0⟩ ∧
      m2.data.getD (insertPos ⟨[], [], 0, 0⟩ ⟨"a", 1, 1, 5, 0⟩ + 1) default =
        ⟨"b", 1, 1, 7, 0⟩ ∧
      (∀ j, j < (⟨[], [], 0, 0⟩ : HistoryItemModel).data.length →
        get_sort_key ((⟨[], [], 0, 0⟩ : HistoryItemModel).data.getD j default) =
          get_sort_key ⟨"a", 1, 1, 5, 0⟩ →
        j < insertPos ⟨[], [], 0, 0⟩ ⟨"a", 1, 1, 5, 0⟩) :=
  ⟨⟨by decide, by decide, by decide, by decide⟩,
    c4_tie_break ⟨[], [], 0, 0⟩ ⟨"a", 1, 1, 5, 0⟩ ⟨"b", 1, 1, 7, 0⟩ (by decide)
      (by decide) (by decide) (by decide) (by decide) (by decide)⟩

/-- C10: for every non-negative confirmation count, `_get_tx_status` returns a
status in `0..9` — `0..3` when `conf = 0` (depending on height and transaction
resolvability) and `3 + min conf 6 ∈ 4..9` when `conf > 0` — so indexing the
10-element `TX_ICONS` list with the status never goes out of bounds. -/
theorem c10_status_range (has_tx : Bool) (height conf : Int) (hconf : 0 ≤ conf) :
    0 ≤ get_tx_status has_tx height conf ∧
    get_tx_status has_tx height conf < (TX_ICONS.length : Int) ∧
    (conf = 0 →
      get_tx_status has_tx height conf = 0 ∨ get_tx_status has_tx height conf = 1 ∨
      get_tx_status has_tx height conf = 2 ∨ get_tx_status has_tx height conf = 3) ∧
    (0 < conf → get_tx_status has_tx height conf = 3 + min conf 6 ∧
      4 ≤ get_tx_status has_tx height conf ∧ get_tx_status has_tx height conf ≤ 9) := by
  have hmain : (conf = 0 ∧ (get_tx_status has_tx height conf = 0 ∨
        get_tx_status has_tx height conf = 1 ∨ get_tx_status has_tx height conf = 2 ∨
        get_tx_status has_tx height conf = 3)) ∨
      (0 < conf ∧ get_tx_status has_tx height conf = 3 + min conf 6) := by
    unfold get_tx_status
    by_cases h0 : conf = 0
    · refine Or.inl ⟨h0, ?_⟩
      rw [if_pos h0]
      cases has_tx
      · simp
      · rw [if_neg (by simp)]
        split_ifs <;> simp
    · exact Or.inr ⟨by omega, by rw [if_neg h0]⟩
  have hlen : (TX_ICONS.length : Int) = 10 := by norm_num [TX_ICONS]
  have hminb : 1 ≤ min conf 6 ∧ min conf 6 ≤ 6 ∨ conf = 0 := by
    rcases hmain with ⟨h0, -⟩ | ⟨h1, -⟩
    · exact Or.inr h0
    · exact Or.inl ⟨le_min h1 (by norm_num), min_le_right _ _⟩
  refine ⟨?_, ?_, ?_, ?_⟩
  · rcases hmain with ⟨-, hst⟩ | ⟨-, hst⟩
    · rcases hst with hs | hs | hs | hs <;> rw [hs] <;> norm_num
    · rw [hst]
      omega
  · rw [hlen]
    rcases hmain with ⟨-, hst⟩ | ⟨-, hst⟩
    · rcases hst with hs | hs | hs | hs <;> rw [hs] <;> norm_num
    · rw [hst]
      omega
  · intro h0
    rcases hmain with ⟨-, hst⟩ | ⟨hc, -⟩
    · exact hst
    · omega
  · intro hpos
    rcases hmain with ⟨hc, -⟩ | ⟨-, hst⟩
    · omega
    · exact ⟨hst, by rw [hst]; omega, by rw [hst]; omega⟩

/-- C1 (amended): from any state satisfying the balance invariant, each public
mutating operation succeeds and re-establishes it — the balances list has the same
length as the record list and `balances[i]` equals the sum of `records[0..i].value`
— provided every `update_line` whose field changes leave the sort key unchanged
also leaves the record's value unchanged (`opSafe`); `set_data` establishes the
invariant from any prior state. -/
theorem c1_balance_invariant (m : HistoryItemModel) (op : Op)
    (hm : balInv m ∨ ∃ h b d, op = Op.setData h b d) (hsafe : opSafe m op) :
    ∃ m', applyOp m op = Except.ok m' ∧
      m'.balances.length = m'.data.length ∧
      ∀ i (hi : i < m'.balances.length),
        m'.balances.get ⟨i, hi⟩ = sumVals (m'.data.take (i + 1)) := by
  cases op with
  | setData h b d =>
    refine ⟨⟨d, prefixSums d, h, b⟩, set_data_eq m h b d, ?_, ?_⟩
    · exact (balInv_pointwise (m := ⟨d, prefixSums d, h, b⟩) rfl).1
    · exact (balInv_pointwise (m := ⟨d, prefixSums d, h, b⟩) rfl).2
  | addLine line =>
    have hinv : balInv m := by
      rcases hm with h | ⟨hh, hb, hd, hc⟩
      · exact h
      · cases hc
    have hinv' : balInv ⟨m.data.insertIdx (insertPos m line) line,
        prefixSums (m.data.insertIdx (insertPos m line) line), m.height, m.balance⟩ := rfl
    exact ⟨_, add_line_ok m line hinv, (balInv_pointwise hinv').1,
      (balInv_pointwise hinv').2⟩
  | updateLine tx values =>
    have hinv : balInv m := by
      rcases hm with h | ⟨hh, hb, hd, hc⟩
      · exact h
      · cases hc
    obtain ⟨r, hr, hrinv⟩ := update_line_balInv m tx values hinv hsafe
    refine ⟨r.model, ?_, (balInv_pointwise hrinv).1, (balInv_pointwise hrinv).2⟩
    show (update_line m tx values).map (·.model) = _
    rw [hr]
    rfl

/-- C1 witness: inserting a fresh record into a valid one-record projection. -/
theorem c1_balance_invariant_witness :
    balInv (⟨[⟨"a", 1, 1, 5, 0⟩], [5], 0, 0⟩ : HistoryItemModel) ∧
    ∃ m', applyOp ⟨[⟨"a", 1, 1, 5, 0⟩], [5], 0, 0⟩ (Op.addLine ⟨"b", 2, 1, 3, 0⟩) =
        Except.ok m' ∧
      m'.balances.length = m'.data.length ∧
      ∀ i (hi : i < m'.balances.length),
        m'.balances.get ⟨i, hi⟩ = sumVals (m'.data.take (i + 1)) :=
  ⟨by decide, c1_balance_invariant ⟨[⟨"a", 1, 1, 5, 0⟩], [5], 0, 0⟩
    (Op.addLine ⟨"b", 2, 1, 3, 0⟩) (Or.inl (by decide)) trivial⟩

/-- C1 counterexample: an `update_line` that changes only `value` (sort key
unchanged) leaves the balances list untouched, so afterwards `balances[0]` no
longer equals the sum of `records[0..0].value`: the unrestricted claim fails. -/
theorem c1_balance_invariant_counterexample :
    applyOp ⟨[], [], 0, 0⟩ (Op.setData 0 0 [⟨"a", 5, 1, 10, 0⟩]) =
      Except.ok ⟨[⟨"a", 5, 1, 10, 0⟩], [10], 0, 0⟩ ∧
    applyOp ⟨[⟨"a", 5, 1, 10, 0⟩], [10], 0, 0⟩
        (Op.updateLine "a" ⟨none, none, none, some 20, none⟩) =
      Except.ok ⟨[⟨"a", 5, 1, 20, 0⟩], [10], 0, 0⟩ ∧
    ([10] : List Int).getD 0 0 ≠
      sumVals (([⟨"a", 5, 1, 20, 0⟩] : List HistoryLine).take (0 + 1)) := by
  decide

/-- C2 (amended): `add_line` and `update_line` preserve sort order: from a state
whose records are non-decreasing by `_get_sort_key`, any successful operation
yields records still non-decreasing; but `set_data` does not sort, so for a
`set_data` operation this holds only when the input sequence is itself sorted. -/
theorem c2_sort_invariant (m : HistoryItemModel) (op : Op) (m' : HistoryItemModel)
    (hs : sortedByKey m.data)
    (hin : ∀ h b d, op = Op.setData h b d → sortedByKey d)
    (hok : applyOp m op = Except.ok m') :
    sortedByKey m'.data := by
  cases op with
  | setData h b d =>
    rw [show applyOp m (Op.setData h b d) = set_data m h b d from rfl,
      set_data_eq m h b d] at hok
    cases hok
    exact hin h b d rfl
  | addLine line =>
    have hok' : calculate_balances (add_line_impl m line).1 (add_line_impl m line).2 =
        Except.ok m' := hok
    obtain ⟨hd', -, -⟩ := calculate_balances_frame _ _ _ hok'
    obtain ⟨hdata, -, -, -⟩ := add_line_impl_data m line
    rw [hd', hdata]
    exact sorted_insert_insertPos m line hs
  | updateLine tx values =>
    have hok' : (update_line m tx values).map (·.model) = Except.ok m' := hok
    cases hu : update_line m tx values with
    | error e =>
      rw [hu] at hok'
      cases hok'
    | ok r =>
      rw [hu] at hok'
      simp only [Except.map] at hok'
      cases hok'
      exact update_line_sorted_result m tx values r hs hu

/-- C2 witness: inserting into a sorted one-record projection keeps it sorted. -/
theorem c2_sort_invariant_witness :
    (sortedByKey [⟨"a", 1, 1, 5, 0⟩] ∧
      applyOp ⟨[⟨"a", 1, 1, 5, 0⟩], [5], 0, 0⟩ (Op.addLine ⟨"b", 2, 1, 3, 0⟩) =
        Except.ok ⟨[⟨"a", 1, 1, 5, 0⟩, ⟨"b", 2, 1, 3, 0⟩], [5, 8], 0, 0⟩) ∧
    sortedByKey [⟨"a", 1, 1, 5, 0⟩, ⟨"b", 2, 1, 3, 0⟩] :=
  ⟨⟨by decide, by decide⟩,
    c2_sort_invariant ⟨[⟨"a", 1, 1, 5, 0⟩], [5], 0, 0⟩ (Op.addLine ⟨"b", 2, 1, 3, 0⟩)
      ⟨[⟨"a", 1, 1, 5, 0⟩, ⟨"b", 2, 1, 3, 0⟩], [5, 8], 0, 0⟩ (by decide)
      (fun h b d hc => by cases hc) (by decide)⟩

/-- C2 counterexample: after `set_data` with an unsorted input the record list is
not non-decreasing by sort key, so the claim fails for `set_data` on arbitrary
input. -/
theorem c2_sort_invariant_counterexample :
    applyOp ⟨[], [], 0, 0⟩ (Op.setData 0 0 [⟨"b", 2, 1, 1, 0⟩, ⟨"a", 1, 1, 1, 0⟩]) =
      Except.ok ⟨[⟨"b", 2, 1, 1, 0⟩, ⟨"a", 1, 1, 1, 0⟩], [1, 2], 0, 0⟩ ∧
    ¬ sortedByKey [⟨"b", 2, 1, 1, 0⟩, ⟨"a", 1, 1, 1, 0⟩] := by
  decide

/-- C6: `update_line` on an existing id whose field changes keep the sort key
returns `True`, reports exactly the one row `(row, row)` as dirty, leaves the whole
balances list and the scalar fields untouched, replaces the record at that row by
the updated record, and leaves every other record unchanged. -/
theorem c6_update_same_key (m : HistoryItemModel) (tx : String) (values : FieldChanges)
    (row : Nat) (hrow : get_row m tx = some row)
    (hkey : get_sort_key (applyChanges (m.data.getD row default) values) =
            get_sort_key (m.data.getD row default)) :
    ∃ r : UpdateResult, update_line m tx values = Except.ok r ∧
      r.ok = true ∧ r.dirtyRows = [(row, row)] ∧
      r.model.balances = m.balances ∧
      r.model.height = m.height ∧ r.model.balance = m.balance ∧
      r.model.data.length = m.data.length ∧
      r.model.data.getD row default = applyChanges (m.data.getD row default) values ∧
      ∀ j, j ≠ row → r.model.data.getD j default = m.data.getD j default := by
  obtain ⟨hrl, -⟩ := get_row_list_spec m.data tx row hrow
  refine ⟨_, update_line_same_key_eq m tx values row hrow hrl hkey.symm, rfl, rfl, rfl,
    rfl, rfl, by simp, ?_, ?_⟩
  · show (m.data.set row (applyChanges (m.data.getD row default) values)).getD row
        default = _
    rw [getD_set_if, if_pos ⟨rfl, hrl⟩]
  · intro j hj
    show (m.data.set row (applyChanges (m.data.getD row default) values)).getD j
        default = _
    rw [getD_set_if, if_neg (fun hc => hj hc.1.symm)]

/-- C6 witness: a value-only update on a one-record projection dirties only row 0
and leaves balances untouched. -/
theorem c6_update_same_key_witness :
    (get_row ⟨[⟨"a", 1, 1, 5, 0⟩], [5], 0, 0⟩ "a" = some 0 ∧
      get_sort_key (applyChanges
        ((⟨[⟨"a", 1, 1, 5, 0⟩], [5], 0, 0⟩ : HistoryItemModel).data.getD 0 default)
        ⟨none, none, none, some 7, none⟩) =
      get_sort_key
        ((⟨[⟨"a", 1, 1, 5, 0⟩], [5], 0, 0⟩ : HistoryItemModel).data.getD 0 default)) ∧
    ∃ r : UpdateResult,
      update_line ⟨[⟨"a", 1, 1, 5, 0⟩], [5], 0, 0⟩ "a" ⟨none, none, none, some 7, none⟩ =
        Except.ok r ∧
      r.ok = true ∧ r.dirtyRows = [(0, 0)] ∧
      r.model.balances = (⟨[⟨"a", 1, 1, 5, 0⟩], [5], 0, 0⟩ : HistoryItemModel).balances ∧
      r.model.height = (⟨[⟨"a", 1, 1, 5, 0⟩], [5], 0, 0⟩ : HistoryItemModel).height ∧
      r.model.balance = (⟨[⟨"a", 1, 1, 5, 0⟩], [5], 0, 0⟩ : HistoryItemModel).balance ∧
      r.model.data.length =
        (⟨[⟨"a", 1, 1, 5, 0⟩], [5], 0, 0⟩ : HistoryItemModel).data.length ∧
      r.model.data.getD 0 default = applyChanges
        ((⟨[⟨"a", 1, 1, 5, 0⟩], [5], 0, 0⟩ : HistoryItemModel).data.getD 0 default)
        ⟨none, none, none, some 7, none⟩ ∧
      ∀ j, j ≠ 0 → r.model.data.getD j default =
        (⟨[⟨"a", 1, 1, 5, 0⟩], [5], 0, 0⟩ : HistoryItemModel).data.getD j default :=
  ⟨⟨by decide, by decide⟩,
    c6_update_same_key ⟨[⟨"a", 1, 1, 5, 0⟩], [5], 0, 0⟩ "a"
      ⟨none, none, none, some 7, none⟩ 0 (by decide) (by decide)⟩

/-- C8 (amended): `add_line` performs no duplicate-id check: inserting a record
whose id already occurs in a valid projection succeeds silently — no exception,
the record count grows by one, and afterwards at least two records carry that id. -/
theorem c8_duplicate_insert (m : HistoryItemModel) (line : HistoryLine)
    (hinv : balInv m) (hdup : ∃ l ∈ m.data, l.tx_hash = line.tx_hash) :
    ∃ m', add_line m line = Except.ok m' ∧
      m'.data.length = m.data.length + 1 ∧
      m'.data.countP (fun l => l.tx_hash == line.tx_hash) =
        m.data.countP (fun l => l.tx_hash == line.tx_hash) + 1 ∧
      2 ≤ m'.data.countP (fun l => l.tx_hash == line.tx_hash) := by
  have hp := insertPos_le m line
  refine ⟨_, add_line_ok m line hinv, ?_, ?_, ?_⟩
  · show (m.data.insertIdx (insertPos m line) line).length = _
    rw [List.length_insertIdx _ _ hp]
  · show (m.data.insertIdx (insertPos m line) line).countP _ = _
    rw [countP_insertIdx _ _ _ _ hp, if_pos (by simp)]
  · have hpos : 0 < m.data.countP (fun l => l.tx_hash == line.tx_hash) := by
      rw [List.countP_pos_iff]
      obtain ⟨l, hl, he⟩ := hdup
      exact ⟨l, hl, by simp [he]⟩
    show 2 ≤ (m.data.insertIdx (insertPos m line) line).countP _
    rw [countP_insertIdx _ _ _ _ hp, if_pos (by simp)]
    omega

/-- C8 witness: inserting a record with an already-present id succeeds and leaves
two records with that id. -/
theorem c8_duplicate_insert_witness :
    (balInv (⟨[⟨"a", 1, 1, 5, 0⟩], [5], 0, 0⟩ : HistoryItemModel) ∧
      ∃ l ∈ ([⟨"a", 1, 1, 5, 0⟩] : List HistoryLine), l.tx_hash = "a") ∧
    ∃ m', add_line ⟨[⟨"a", 1, 1, 5, 0⟩], [5], 0, 0⟩ ⟨"a", 1, 1, 3, 0⟩ =
        Except.ok m' ∧
      m'.data.length = 2 ∧
      m'.data.countP (fun l => l.tx_hash == "a") =
        ([⟨"a", 1, 1, 5, 0⟩] : List HistoryLine).countP (fun l => l.tx_hash == "a") + 1 ∧
      2 ≤ m'.data.countP (fun l => l.tx_hash == "a") :=
  ⟨⟨by decide, by decide⟩,
    c8_duplicate_insert ⟨[⟨"a", 1, 1, 5, 0⟩], [5], 0, 0⟩ ⟨"a", 1, 1, 3, 0⟩
      (by decide) (by decide)⟩

/-- C8 counterexample: `add_line` with a duplicate id raises no error and silently
inserts a second record with the same id. -/
theorem c8_duplicate_insert_counterexample :
    add_line ⟨[⟨"a", 1, 1, 5, 0⟩], [5], 0, 0⟩ ⟨"a", 1, 1, 3, 0⟩ =
      Except.ok ⟨[⟨"a", 1, 1, 5, 0⟩, ⟨"a", 1, 1, 3, 0⟩], [5, 8], 0, 0⟩ ∧
    ([⟨"a", 1, 1, 5, 0⟩, ⟨"a", 1, 1, 3, 0⟩] : List HistoryLine).countP
      (fun l => l.tx_hash == "a") = 2 := by
  decide

/-- C10 witness at `conf = 2`, `height = 7`, transaction present. -/
theorem c10_status_range_witness :
    (0 : Int) ≤ 2 ∧
    (0 ≤ get_tx_status true 7 2 ∧
      get_tx_status true 7 2 < (TX_ICONS.length : Int) ∧
      ((2 : Int) = 0 →
        get_tx_status true 7 2 = 0 ∨ get_tx_status true 7 2 = 1 ∨
        get_tx_status true 7 2 = 2 ∨ get_tx_status true 7 2 = 3) ∧
      ((0 : Int) < 2 → get_tx_status true 7 2 = 3 + min 2 6 ∧
        4 ≤ get_tx_status true 7 2 ∧ get_tx_status true 7 2 ≤ 9)) :=
  ⟨by decide, c10_status_range true 7 2 (by decide)⟩

end HistoryList
